import Mathlib

/-!
A verification development for the DelphiOracle contract
(src/contract/oracle.cpp).  The contract's three tables are modelled as
Lean lists: the `eosusd` multi_index table is represented by the list of
its rows in primary-key (ascending `id`) iteration order, the
`eosusdstats` table by a list of stat rows keyed by `owner`, and the
`oracles` table by the list of approved account names.  All `uint64_t`
arithmetic is carried out on `Nat` with an explicit `% 2^64` wherever the
C++ code can overflow or wrap.  An `eosio_assert` failure aborts the whole
transaction, leaving every table unchanged; aborting paths are therefore
modelled by `Option`/`Except` failure results (a `none`/`.error` outcome
means no state change at all).
-/

/-- Modulus of `uint64_t` arithmetic. -/
def U64LIM : Nat := 2 ^ 64

/-- Number of datapoints to hold (`datapoints_count = 21` in oracle.cpp). -/
def datapoints_count : Nat := 21

/-- Minimum accepted value (`val_min = 100`). -/
def val_min : Nat := 100

/-- Maximum accepted value (`val_max = 100000000`). -/
def val_max : Nat := 100000000

/-- Write interval (`one_minute = 1000000 * 55` microseconds in oracle.cpp;
the name is kept from the source, the value is 55 seconds). -/
def one_minute : Nat := 1000000 * 55

/-- The first primary key handed out:
`std::numeric_limits<unsigned long long>::max()`. -/
def SEQ_MAX : Nat := U64LIM - 1

/-- A row of the `eosusd` table: one price observation. -/
structure eosusd where
  id : Nat
  owner : Nat
  value : Nat
  average : Nat
  timestamp : Nat
deriving DecidableEq, Repr

/-- A row of the `eosusdstats` table: per-reporter rate-limit state. -/
structure eosusdstats where
  owner : Nat
  timestamp : Nat
  count : Nat
deriving DecidableEq, Repr

/-- Primary-key order on `eosusd` rows (the `id` field). -/
def idLe (a b : eosusd) : Prop := a.id ≤ b.id

instance : DecidableRel idLe :=
  fun a b => inferInstanceAs (Decidable (a.id ≤ b.id))

instance : IsTotal eosusd idLe :=
  ⟨fun a b => Nat.le_total a.id b.id⟩

instance : IsTrans eosusd idLe :=
  ⟨fun _ _ _ hab hbc => Nat.le_trans hab hbc⟩

/-- Order of the `value` secondary index: by `value`, ties broken by the
primary key, as eosio secondary indices do. -/
def valueRel (a b : eosusd) : Prop :=
  a.value < b.value ∨ (a.value = b.value ∧ a.id ≤ b.id)

instance : DecidableRel valueRel :=
  fun a b => inferInstanceAs (Decidable (a.value < b.value ∨ (a.value = b.value ∧ a.id ≤ b.id)))

instance : IsTotal eosusd valueRel := by
  constructor
  intro a b
  rcases Nat.lt_trichotomy a.value b.value with h | h | h
  · exact Or.inl (Or.inl h)
  · rcases Nat.le_total a.id b.id with h2 | h2
    · exact Or.inl (Or.inr ⟨h, h2⟩)
    · exact Or.inr (Or.inr ⟨h.symm, h2⟩)
  · exact Or.inr (Or.inl h)

instance : IsTrans eosusd valueRel := by
  constructor
  intro a b c hab hbc
  rcases hab with h1 | ⟨h1, h1i⟩ <;> rcases hbc with h2 | ⟨h2, h2i⟩
  · exact Or.inl (Nat.lt_trans h1 h2)
  · exact Or.inl (h2 ▸ h1)
  · exact Or.inl (h1 ▸ h2)
  · exact Or.inr ⟨h1.trans h2, h1i.trans h2i⟩

/-- The `emplace` of a row into the `eosusd` table: eosio `emplace` aborts
the transaction when the primary key already exists, and otherwise inserts
the row at its primary-key-ordered position. -/
def emplaceById (x : eosusd) (w : List eosusd) : Option (List eosusd) :=
  if x.id ∈ w.map eosusd.id then none
  else some (List.orderedInsert idLe x w)

/-- The primary key that `update_eosusd_oracle` assigns next:
`latest->id - 1` in `uint64_t` arithmetic when the table is non-empty
(`latest` is `begin()`, the row with the smallest `id`), and `SEQ_MAX` for
the first row ever. -/
def newKeyOf : List eosusd → Nat
  | [] => SEQ_MAX
  | latest :: _ => (latest.id + (U64LIM - 1)) % U64LIM

/-- Shallow embedding of `DelphiOracle::update_eosusd_oracle`
(oracle.cpp lines 137-225).  `now` stands for `current_time()`.  The
returned list is the new table contents; `none` is the aborting
`emplace`-with-duplicate-primary-key path. -/
def update_eosusd_oracle (owner value now : Nat) (w : List eosusd) : Option (List eosusd) :=
  match w with
  | [] =>
    emplaceById { id := SEQ_MAX, owner := owner, value := value, average := value, timestamp := now } []
  | latest :: rest =>
    let size := (latest :: rest).length
    let primary_key := (latest.id + (U64LIM - 1)) % U64LIM
    if size + 1 > datapoints_count then
      match emplaceById { id := primary_key, owner := owner, value := value, average := 0, timestamp := now } ((latest :: rest).dropLast) with
      | none => none
      | some w2 =>
        let value_sorted := List.insertionSort valueRel w2
        let avg := (((value_sorted.drop 6).take 9).map eosusd.value).sum % U64LIM
        some (w2.map fun s => if s.id = primary_key then { s with average := avg / 9 } else s)
    else
      emplaceById { id := primary_key, owner := owner, value := value, average := value, timestamp := now } (latest :: rest)

/-- Shallow embedding of `DelphiOracle::check_last_push`
(oracle.cpp lines 107-134).  `none` is the aborting
`eosio_assert(last.timestamp + one_minute <= ctime, ...)` path; the
addition is `uint64_t` addition, hence the `% U64LIM`. -/
def check_last_push (owner now : Nat) (store : List eosusdstats) : Option (List eosusdstats) :=
  match store.find? (fun s => s.owner == owner) with
  | some last =>
    if (last.timestamp + one_minute) % U64LIM ≤ now then
      some (store.map fun s =>
        if s.owner == owner then { s with timestamp := now, count := (s.count + 1) % U64LIM } else s)
    else
      none
  | none => some (store ++ [{ owner := owner, timestamp := now, count := 0 }])

/-- The producers array of `check_oracle`: a zero-initialized
`account_name[21]` whose first `producers.length` slots are filled by
`get_active_producers` (the host truncates to at most 21 entries). -/
def padProducers (producers : List Nat) : List Nat :=
  producers ++ List.replicate (datapoints_count - producers.length) 0

/-- Shallow embedding of `DelphiOracle::check_oracle`
(oracle.cpp lines 82-104): the caller qualifies when it is on the
`oracles` table or matches one of the 21 slots of the producers array
(the loop runs over all 21 slots, `bytes_populated` is never consulted). -/
def check_oracle (oracleTable : List Nat) (producers : List Nat) (owner : Nat) : Bool :=
  oracleTable.contains owner || (padProducers producers).contains owner

/-- State of the three contract tables. -/
structure OracleState where
  usd : List eosusd
  stats : List eosusdstats
  oracles : List Nat
deriving DecidableEq, Repr

/-- Failure outcomes of the `write` action; each is an `eosio_assert`
abort, so the transaction leaves every table unchanged. -/
inductive WriteError where
  | OutOfRange
  | NotQualified
  | RateLimited
  | InsertFailed
deriving DecidableEq, Repr

/-- Shallow embedding of the `write` action (oracle.cpp lines 228-239):
range check, then `check_oracle`, then `check_last_push`, then
`update_eosusd_oracle`.  `producers` is the host-supplied active-producer
list and `now` the host clock. -/
def write (producers : List Nat) (now owner value : Nat) (st : OracleState) : Except WriteError OracleState :=
  if val_min ≤ value ∧ value ≤ val_max then
    if check_oracle st.oracles producers owner then
      match check_last_push owner now st.stats with
      | none => .error .RateLimited
      | some stats2 =>
        match update_eosusd_oracle owner value now st.usd with
        | none => .error .InsertFailed
        | some usd2 => .ok { st with stats := stats2, usd := usd2 }
    else .error .NotQualified
  else .error .OutOfRange

/-- The `emplace` of one account into the `oracles` table: aborts when the
primary key (the account) is already present. -/
def emplaceOracle (o : Nat) (tbl : List Nat) : Option (List Nat) :=
  if o ∈ tbl then none else some (List.orderedInsert (fun a b => a ≤ b) o tbl)

/-- The insertion loop of `setoracles` over the already-cleared table. -/
def setoraclesAux : List Nat → List Nat → Option (List Nat)
  | [], tbl => some tbl
  | o :: rest, tbl =>
    match emplaceOracle o tbl with
    | none => none
    | some tbl2 => setoraclesAux rest tbl2

/-- Shallow embedding of `DelphiOracle::setoracles`
(oracle.cpp lines 242-261): the erase loop empties the whole `oracles`
table (whatever it held), then each entry of `oracleslist` is emplaced in
turn. -/
def setoracles (oracleslist : List Nat) (tbl : List Nat) : Option (List Nat) :=
  setoraclesAux oracleslist []

/-- Shallow embedding of `DelphiOracle::clear` (oracle.cpp lines 264-289):
the three erase loops run until each of `eosusdstats`, `eosusd` and
`oracles` is empty. -/
def clear (st : OracleState) : OracleState :=
  { usd := [], stats := [], oracles := [] }

/-- A run of accepted submissions against the `eosusd` table: each triple
is `(owner, value, now)` and is fed to `update_eosusd_oracle`; the run
aborts as soon as one step does. -/
def runWindow : List (Nat × Nat × Nat) → List eosusd → Option (List eosusd)
  | [], w => some w
  | (o, v, t) :: rest, w =>
    match update_eosusd_oracle o v t w with
    | none => none
    | some w2 => runWindow rest w2

/-- The trimmed mean the code computes over a window's values: sort
ascending, drop the 6 smallest, average the next 9 (the values ranked 7th
through 15th of 21) with floor division. -/
def trimmedAvg7to15 (vals : List Nat) : Nat :=
  ((((List.insertionSort (fun a b : Nat => a ≤ b) vals).drop 6).take 9).sum) / 9

/-- Modelled from the spec: the trimmed mean the specification describes
("skip the 5 smallest values, then take the next 9", the values ranked 6th
through 14th of 21), to be compared against the code's computation. -/
def trimmedAvg6to14 (vals : List Nat) : Nat :=
  ((((List.insertionSort (fun a b : Nat => a ≤ b) vals).drop 5).take 9).sum) / 9

/-- Rows untouched by the modify lambda of `check_last_push` keep their
owner field, so the find? predicate is unchanged by the map. -/
lemma check_last_push_map_owner (owner now : Nat) (s : eosusdstats) :
    (if s.owner == owner then { s with timestamp := now, count := (s.count + 1) % U64LIM } else s).owner = s.owner := by
  split <;> rfl

/-- Claim C3: with existing rate state (and no uint64 overflow in
`lastWriteAt + one_minute` nor in the write counter), `check_last_push`
aborts exactly when `now < lastWriteAt + one_minute`; on success the
reporter's row becomes `{timestamp := now, count := count + 1}` and every
other reporter's row is untouched.  An abort (`none`) is a transaction
rollback, so on rejection no table changes at all. -/
theorem c3_rate_limit (owner now : Nat) (store : List eosusdstats) (st : eosusdstats)
    (hfind : store.find? (fun s => s.owner == owner) = some st)
    (hts : st.timestamp + one_minute < U64LIM)
    (hcnt : st.count + 1 < U64LIM) :
    (check_last_push owner now store = none ↔ now < st.timestamp + one_minute) ∧
    (st.timestamp + one_minute ≤ now →
      ∃ store2, check_last_push owner now store = some store2 ∧
        store2.find? (fun s => s.owner == owner) =
          some { st with timestamp := now, count := st.count + 1 } ∧
        ∀ s ∈ store, s.owner ≠ owner → s ∈ store2) := by
  unfold check_last_push
  rw [hfind]
  dsimp only
  rw [Nat.mod_eq_of_lt hts]
  constructor
  · split
    · rename_i h
      exact ⟨fun hc => Option.noConfusion hc, fun hlt => absurd h (by omega)⟩
    · rename_i h
      exact ⟨fun _ => (by omega), fun _ => rfl⟩
  · intro hle
    rw [if_pos hle]
    refine ⟨_, rfl, ?_, ?_⟩
    · rw [List.find?_map]
      have hpred : (fun s : eosusdstats => s.owner == owner) ∘
          (fun s : eosusdstats => if s.owner == owner then { s with timestamp := now, count := (s.count + 1) % U64LIM } else s) =
          (fun s : eosusdstats => s.owner == owner) := by
        funext s
        simp only [Function.comp_apply, check_last_push_map_owner]
      rw [hpred, hfind]
      have h2 := List.find?_some hfind
      have ho : (st.owner == owner) = true := h2
      simp only [Option.map_some']
      rw [if_pos ho, Nat.mod_eq_of_lt hcnt]
    · intro s hs hne
      have hbeq : (s.owner == owner) = false := by
        simpa using hne
      refine List.mem_map.2 ⟨s, hs, ?_⟩
      rw [hbeq]
      simp

/-- Claim C3 witness at a concrete input. -/
theorem c3_rate_limit_witness :
    (check_last_push 5 60000000 [{ owner := 5, timestamp := 0, count := 0 }] = none ↔
      60000000 < 0 + one_minute) ∧
    (0 + one_minute ≤ 60000000 →
      ∃ store2, check_last_push 5 60000000 [{ owner := 5, timestamp := 0, count := 0 }] = some store2 ∧
        store2.find? (fun s => s.owner == 5) = some { owner := 5, timestamp := 60000000, count := 1 } ∧
        ∀ s ∈ [({ owner := 5, timestamp := 0, count := 0 } : eosusdstats)], s.owner ≠ 5 → s ∈ store2) :=
  c3_rate_limit 5 60000000 [{ owner := 5, timestamp := 0, count := 0 }]
    { owner := 5, timestamp := 0, count := 0 } (by rfl) (by decide) (by decide)

/-- Claim C5: a first-ever submission is never rate-limited, whatever
`now` is, and it creates the rate row with `timestamp = now` and
`count = 0`. -/
theorem c5_first_write (owner now : Nat) (store : List eosusdstats)
    (hnone : store.find? (fun s => s.owner == owner) = none) :
    check_last_push owner now store =
      some (store ++ [{ owner := owner, timestamp := now, count := 0 }]) := by
  unfold check_last_push
  rw [hnone]

/-- Claim C5 witness at a concrete input. -/
theorem c5_first_write_witness :
    check_last_push 1 0 [] = some [{ owner := 1, timestamp := 0, count := 0 }] :=
  c5_first_write 1 0 [] (by rfl)

/-- Claim C6: `write` with value 99 (= val_min - 1) or 100000001
(= val_max + 1) fails with OutOfRange for every caller, producer list,
clock value and starting state; the failure is an `eosio_assert` raised
before `check_oracle` and `check_last_push` run, so the transaction
aborts with no table mutated. -/
theorem c6_out_of_range (producers : List Nat) (now owner : Nat) (st : OracleState) :
    write producers now owner 99 st = .error .OutOfRange ∧
    write producers now owner 100000001 st = .error .OutOfRange := by
  constructor <;>
  · unfold write
    rw [if_neg (by decide)]

/-- Claim C9: after `clear` the window, the rate table and the allow-list
are all empty, and a subsequent `check_last_push` from any reporter takes
the first-ever-write path: it succeeds for every `now` and recreates the
reporter's row with `count = 0`. -/
theorem c9_clear_resets (st : OracleState) :
    (clear st).usd = [] ∧ (clear st).stats = [] ∧ (clear st).oracles = [] ∧
    ∀ owner now, check_last_push owner now (clear st).stats =
      some [{ owner := owner, timestamp := now, count := 0 }] :=
  ⟨rfl, rfl, rfl, fun _ _ => rfl⟩

/-- Claim C7 is falsified by the code at the zero account name:
`check_oracle` scans all 21 slots of the zero-initialized producers array
and never consults `bytes_populated`, so owner 0 qualifies whenever the
producer list fills fewer than 21 slots — here both the allow-list and the
producer list are empty, yet the function returns true. -/
theorem c7_counterexample :
    check_oracle [] [] 0 = true ∧
    ¬((0 : Nat) ∈ ([] : List Nat) ∨ (0 : Nat) ∈ ([] : List Nat)) := by
  decide

/-- Claim C7 amended: with a host-truncated producer list (at most 21
entries), `check_oracle` returns true iff the caller is on the allow-list,
or on the producer list, or is the zero account name while the producer
list fills fewer than 21 of the array's 21 slots (the unfilled slots hold
the zero account name and match it).  The function is pure, so there is no
side effect and no error case for absence. -/
theorem c7_check_oracle (oracleTable producers : List Nat) (owner : Nat)
    (hp : producers.length ≤ datapoints_count) :
    check_oracle oracleTable producers owner = true ↔
      owner ∈ oracleTable ∨ owner ∈ producers ∨
        (owner = 0 ∧ producers.length < datapoints_count) := by
  unfold check_oracle padProducers
  simp only [Bool.or_eq_true, List.elem_iff, List.mem_append, List.mem_replicate]
  constructor
  · rintro (h | h | ⟨hn, h0⟩)
    · exact Or.inl h
    · exact Or.inr (Or.inl h)
    · exact Or.inr (Or.inr ⟨h0, by omega⟩)
  · rintro (h | h | ⟨h0, hlen⟩)
    · exact Or.inl h
    · exact Or.inr (Or.inl h)
    · exact Or.inr (Or.inr ⟨by omega, h0⟩)

/-- Claim C7 witness at a concrete input. -/
theorem c7_check_oracle_witness :
    check_oracle [3] [2] 3 = true ↔
      (3 : Nat) ∈ [3] ∨ (3 : Nat) ∈ [2] ∨
        ((3 : Nat) = 0 ∧ ([2] : List Nat).length < datapoints_count) :=
  c7_check_oracle [3] [2] 3 (by decide)

/-- Claim C8 is falsified by the code on a duplicate list: the second
`emplace` of the same account hits the primary-key uniqueness assert of
the multi_index table, so `setoracles` aborts instead of succeeding. -/
theorem c8_counterexample : setoracles [1, 1] [2] = none := by decide

/-- The insertion loop of `setoracles` succeeds on a duplicate-free list
and produces exactly the accumulated members. -/
lemma setoraclesAux_nodup (lst : List Nat) : ∀ acc : List Nat, lst.Nodup →
    (∀ x ∈ lst, x ∉ acc) →
    ∃ out, setoraclesAux lst acc = some out ∧ ∀ x, x ∈ out ↔ x ∈ acc ∨ x ∈ lst := by
  induction lst with
  | nil =>
    intro acc _ _
    exact ⟨acc, rfl, fun x => by simp⟩
  | cons o rest ih =>
    intro acc hnd hdisj
    have ho : o ∉ acc := hdisj o (by simp)
    have hmemins : ∀ x, x ∈ List.orderedInsert (fun a b => a ≤ b) o acc ↔ x = o ∨ x ∈ acc := by
      intro x
      have hperm := List.perm_orderedInsert (fun a b : Nat => a ≤ b) o acc
      rw [hperm.mem_iff]
      simp
    have hdisj2 : ∀ x ∈ rest, x ∉ List.orderedInsert (fun a b => a ≤ b) o acc := by
      intro x hx hmem
      rcases (hmemins x).1 hmem with h | h
      · subst h
        exact (List.nodup_cons.1 hnd).1 hx
      · exact hdisj x (List.mem_cons_of_mem _ hx) h
    obtain ⟨out, h1, h2⟩ := ih (List.orderedInsert (fun a b => a ≤ b) o acc) (List.Nodup.of_cons hnd) hdisj2
    refine ⟨out, ?_, ?_⟩
    · unfold setoraclesAux emplaceOracle
      rw [if_neg ho]
      exact h1
    · intro x
      rw [h2 x, hmemins x]
      simp only [List.mem_cons]
      tauto

/-- Claim C8 amended: `setoracles` discards the entire current allow-list
(whatever it held) and repopulates it from the new list; for every
duplicate-free input list — the empty list included — it succeeds and the
resulting membership is exactly the set of identities of the input.  A
list with a duplicate identity instead aborts the transaction on the
multi_index uniqueness assert (see the counterexample), leaving the old
allow-list in place. -/
theorem c8_setoracles (oracleslist tbl : List Nat) (hnd : oracleslist.Nodup) :
    ∃ tbl2, setoracles oracleslist tbl = some tbl2 ∧ ∀ x, x ∈ tbl2 ↔ x ∈ oracleslist := by
  obtain ⟨out, h1, h2⟩ := setoraclesAux_nodup oracleslist [] hnd (by simp)
  refine ⟨out, h1, fun x => ?_⟩
  rw [h2 x]
  simp

/-- Claim C8 witness at a concrete input. -/
theorem c8_setoracles_witness :
    ∃ tbl2, setoracles [1, 2] [5] = some tbl2 ∧ ∀ x, x ∈ tbl2 ↔ x ∈ [1, 2] :=
  c8_setoracles [1, 2] [5] (by decide)

/-- The modify step of `update_eosusd_oracle` rewrites only the average
field, never the id. -/
lemma map_avg_id (pk a : Nat) (s : eosusd) :
    (if s.id = pk then { s with average := a } else s).id = s.id := by
  split <;> rfl

/-- Every successful `update_eosusd_oracle` inserts a row carrying the
freshly assigned primary key `newKeyOf w`. -/
lemma update_mem_newKey (owner value now : Nat) (w w2 : List eosusd)
    (h : update_eosusd_oracle owner value now w = some w2) :
    ∃ x ∈ w2, x.id = newKeyOf w := by
  cases w with
  | nil =>
    simp only [update_eosusd_oracle, emplaceById, List.map_nil, List.not_mem_nil, if_false] at h
    injection h with h
    subst h
    exact ⟨{ id := SEQ_MAX, owner := owner, value := value, average := value, timestamp := now },
      by simp [List.orderedInsert], rfl⟩
  | cons latest rest =>
    unfold update_eosusd_oracle at h
    dsimp only at h
    split at h
    · split at h
      · exact absurd h (by simp)
      · rename_i w3 hemp
        injection h with h
        subst h
        unfold emplaceById at hemp
        split at hemp
        · exact absurd hemp (by simp)
        · injection hemp with hemp
          subst hemp
          have hperm := List.perm_orderedInsert idLe
            { id := (latest.id + (U64LIM - 1)) % U64LIM, owner := owner, value := value, average := 0, timestamp := now }
            ((latest :: rest).dropLast)
          refine ⟨_, List.mem_map_of_mem _ (hperm.mem_iff.2 (List.mem_cons_self _ _)), ?_⟩
          simp only [map_avg_id, if_true]
          rfl
    · unfold emplaceById at h
      split at h
      · exact absurd h (by simp)
      · injection h with h
        subst h
        have hperm := List.perm_orderedInsert idLe
          { id := (latest.id + (U64LIM - 1)) % U64LIM, owner := owner, value := value, average := value, timestamp := now }
          (latest :: rest)
        exact ⟨_, hperm.mem_iff.2 (List.mem_cons_self _ _), rfl⟩

/-- Claim C10: the key assignment `latest->id - 1` is 64-bit modular: when
the newest row has sequence 0, the next accepted observation is assigned
`2^64 - 1`, which is not smaller than 0 — strict decrease of sequence keys
holds only while the newest sequence is nonzero. -/
theorem c10_wraparound (owner value now : Nat) (latest : eosusd) (rest : List eosusd)
    (w2 : List eosusd) (hid : latest.id = 0)
    (hupd : update_eosusd_oracle owner value now (latest :: rest) = some w2) :
    newKeyOf (latest :: rest) = U64LIM - 1 ∧
    (∃ x ∈ w2, x.id = U64LIM - 1) ∧
    ¬ newKeyOf (latest :: rest) < latest.id := by
  have hkey : newKeyOf (latest :: rest) = U64LIM - 1 := by
    show (latest.id + (U64LIM - 1)) % U64LIM = U64LIM - 1
    rw [hid, Nat.zero_add]
    exact Nat.mod_eq_of_lt (by unfold U64LIM; omega)
  refine ⟨hkey, ?_, ?_⟩
  · obtain ⟨x, hx, hxid⟩ := update_mem_newKey owner value now (latest :: rest) w2 hupd
    exact ⟨x, hx, by rw [hxid, hkey]⟩
  · rw [hkey, hid]
    exact Nat.not_lt_zero _

/-- Claim C10 witness at a concrete input. -/
theorem c10_wraparound_witness :
    newKeyOf [{ id := 0, owner := 1, value := 100, average := 100, timestamp := 0 }] = U64LIM - 1 ∧
    (∃ x ∈ [({ id := 0, owner := 1, value := 100, average := 100, timestamp := 0 } : eosusd),
            { id := U64LIM - 1, owner := 2, value := 200, average := 200, timestamp := 7 }],
        x.id = U64LIM - 1) ∧
    ¬ newKeyOf [{ id := 0, owner := 1, value := 100, average := 100, timestamp := 0 }] <
        ({ id := 0, owner := 1, value := 100, average := 100, timestamp := 0 } : eosusd).id :=
  c10_wraparound 2 200 7 { id := 0, owner := 1, value := 100, average := 100, timestamp := 0 } []
    [{ id := 0, owner := 1, value := 100, average := 100, timestamp := 0 },
     { id := U64LIM - 1, owner := 2, value := 200, average := 200, timestamp := 7 }]
    rfl (by decide)

/-- Claim C1 is falsified by the code on an explicit full window.  The
code comment says "skip first 6 values": `begin()` plus five increments
leaves the iterator on the 6th-smallest value and each loop iteration
advances before reading, so the 9 values summed are those ranked 7th-15th
(ascending), not 6th-14th as the claim states.  On this window the
resulting values are 101..121; the code stores
floor((107+...+115)/9) = 111 on the inserted row, while the claim's
formula gives floor((106+...+114)/9) = 110. -/
def c1window : List eosusd :=
  [{ id := 980, owner := 1, value := 101, average := 0, timestamp := 0 },
   { id := 981, owner := 1, value := 102, average := 0, timestamp := 0 },
   { id := 982, owner := 1, value := 103, average := 0, timestamp := 0 },
   { id := 983, owner := 1, value := 104, average := 0, timestamp := 0 },
   { id := 984, owner := 1, value := 105, average := 0, timestamp := 0 },
   { id := 985, owner := 1, value := 106, average := 0, timestamp := 0 },
   { id := 986, owner := 1, value := 107, average := 0, timestamp := 0 },
   { id := 987, owner := 1, value := 108, average := 0, timestamp := 0 },
   { id := 988, owner := 1, value := 109, average := 0, timestamp := 0 },
   { id := 989, owner := 1, value := 110, average := 0, timestamp := 0 },
   { id := 990, owner := 1, value := 111, average := 0, timestamp := 0 },
   { id := 991, owner := 1, value := 112, average := 0, timestamp := 0 },
   { id := 992, owner := 1, value := 113, average := 0, timestamp := 0 },
   { id := 993, owner := 1, value := 114, average := 0, timestamp := 0 },
   { id := 994, owner := 1, value := 115, average := 0, timestamp := 0 },
   { id := 995, owner := 1, value := 116, average := 0, timestamp := 0 },
   { id := 996, owner := 1, value := 117, average := 0, timestamp := 0 },
   { id := 997, owner := 1, value := 118, average := 0, timestamp := 0 },
   { id := 998, owner := 1, value := 119, average := 0, timestamp := 0 },
   { id := 999, owner := 1, value := 120, average := 0, timestamp := 0 },
   { id := 1000, owner := 1, value := 999, average := 0, timestamp := 0 }]

/-- The window `c1window` after accepting one more observation of value
121: the oldest row (id 1000) is evicted and the new row gets id 979 and
average 111. -/
def c1window2 : List eosusd :=
  { id := 979, owner := 2, value := 121, average := 111, timestamp := 777 } :: c1window.dropLast

/-- Claim C1 counterexample: inserting value 121 into the full window
`c1window` stores average 111 on the new row (id 979), but the average
the claim prescribes — floor of the mean of the values ranked 6th-14th of
the resulting window — is 110. -/
theorem c1_counterexample :
    (update_eosusd_oracle 2 121 777 c1window).map
        (fun w => ((w.filter fun x => x.id == 979).map eosusd.average,
                   trimmedAvg6to14 (w.map eosusd.value))) = some ([111], 110) ∧
    (111 : Nat) ≠ 110 := by
  decide

/-- The comparison of `valueRel` always respects the value ordering. -/
lemma valueRel_le (a b : eosusd) (h : valueRel a b) : a.value ≤ b.value := by
  rcases h with h | ⟨h, _⟩
  · exact Nat.le_of_lt h
  · exact Nat.le_of_eq h

/-- Reading the values out of the value-index iteration order is the same
as sorting the window's value list ascending. -/
lemma map_value_insertionSort (w : List eosusd) :
    (List.insertionSort valueRel w).map eosusd.value =
      List.insertionSort (fun a b : Nat => a ≤ b) (w.map eosusd.value) := by
  apply List.eq_of_perm_of_sorted (r := fun a b : Nat => a ≤ b)
  · exact ((List.perm_insertionSort valueRel w).map eosusd.value).trans
      (List.perm_insertionSort _ (w.map eosusd.value)).symm
  · exact List.Pairwise.map _ valueRel_le (List.sorted_insertionSort valueRel w)
  · exact List.sorted_insertionSort _ _

/-- The modify step of `update_eosusd_oracle` rewrites only the average
field, never the value. -/
lemma map_avg_value (pk a : Nat) (s : eosusd) :
    (if s.id = pk then { s with average := a } else s).value = s.value := by
  split <;> rfl

/-- The modify step leaves the window's value list unchanged. -/
lemma map_value_map_avg (pk a : Nat) (w : List eosusd) :
    (w.map (fun s => if s.id = pk then { s with average := a } else s)).map eosusd.value =
      w.map eosusd.value := by
  rw [List.map_map]
  apply List.map_congr_left
  intro s _
  exact map_avg_value pk a s

/-- The average the code computes over the value index equals the trimmed
7th-to-15th-rank mean of the window's values, provided all values are in
range (so the uint64 accumulation cannot overflow: nine values of at most
val_max sum to well under 2^64). -/
lemma code_avg_eq_trimmed (w3 : List eosusd) (hb : ∀ x ∈ w3, x.value ≤ val_max) :
    ((((List.insertionSort valueRel w3).drop 6).take 9).map eosusd.value).sum % U64LIM / 9 =
      trimmedAvg7to15 (w3.map eosusd.value) := by
  have hmt : (((List.insertionSort valueRel w3).drop 6).take 9).map eosusd.value =
      ((List.insertionSort (fun a b : Nat => a ≤ b) (w3.map eosusd.value)).drop 6).take 9 := by
    rw [List.map_take, List.map_drop, map_value_insertionSort]
  rw [hmt]
  have hsub : ∀ x ∈ ((List.insertionSort (fun a b : Nat => a ≤ b) (w3.map eosusd.value)).drop 6).take 9,
      x ≤ val_max := by
    intro x hx
    have hsl : List.Sublist (((List.insertionSort (fun a b : Nat => a ≤ b) (w3.map eosusd.value)).drop 6).take 9)
        (List.insertionSort (fun a b : Nat => a ≤ b) (w3.map eosusd.value)) :=
      (List.take_sublist _ _).trans (List.drop_sublist _ _)
    have h2 : x ∈ w3.map eosusd.value :=
      (List.perm_insertionSort _ _).mem_iff.1 (hsl.subset hx)
    obtain ⟨y, hy, hyx⟩ := List.mem_map.1 h2
    exact hyx ▸ hb y hy
  have hsum := List.sum_le_card_nsmul _ val_max hsub
  have hlen : (((List.insertionSort (fun a b : Nat => a ≤ b) (w3.map eosusd.value)).drop 6).take 9).length ≤ 9 := by
    rw [List.length_take]
    exact Nat.min_le_left _ _
  have hlt : ((((List.insertionSort (fun a b : Nat => a ≤ b) (w3.map eosusd.value)).drop 6).take 9)).sum < U64LIM := by
    have h9 : (((List.insertionSort (fun a b : Nat => a ≤ b) (w3.map eosusd.value)).drop 6).take 9).length • val_max ≤ 9 * val_max := by
      rw [smul_eq_mul]
      exact Nat.mul_le_mul_right _ hlen
    have hfin : 9 * val_max < U64LIM := by decide
    omega
  rw [Nat.mod_eq_of_lt hlt]
  rfl

/-- Claim C1 amended: when a full 21-row window accepts a new observation
(all values in range, as every accepted value is) the engine evicts the
positionally last row of the primary index (the largest id, the oldest),
inserts the new row under the freshly assigned key, and sets the new
row's average to floor(sum of the 9 values ranked 7th through 15th in
ascending value order of the resulting 21-row window / 9) — the 6
smallest and 6 largest values are excluded, not 5 and 7 as the claim
stated.  Every surviving row is left entirely unchanged, its stored
average included. -/
theorem c1_trimmed_average (owner value now : Nat) (w w2 : List eosusd)
    (hlen : w.length = datapoints_count)
    (hvb : ∀ x ∈ w, x.value ≤ val_max)
    (hv : value ≤ val_max)
    (hupd : update_eosusd_oracle owner value now w = some w2) :
    w2.length = datapoints_count ∧
    (∃ x ∈ w2, x.id = newKeyOf w) ∧
    (∀ x ∈ w2, x.id = newKeyOf w → x.average = trimmedAvg7to15 (w2.map eosusd.value)) ∧
    (∀ x ∈ w.dropLast, x ∈ w2) := by
  obtain ⟨x0, hx0, hx0id⟩ := update_mem_newKey owner value now w w2 hupd
  cases w with
  | nil => exact absurd hlen (by decide)
  | cons latest rest =>
    unfold update_eosusd_oracle at hupd
    dsimp only at hupd
    split at hupd
    · split at hupd
      · exact absurd hupd (by simp)
      · rename_i w3 hemp
        injection hupd with hupd
        subst hupd
        unfold emplaceById at hemp
        split at hemp
        · exact absurd hemp (by simp)
        · rename_i hnotmem
          injection hemp with hemp
          subst hemp
          have hperm := List.perm_orderedInsert idLe
            { id := (latest.id + (U64LIM - 1)) % U64LIM, owner := owner, value := value, average := 0, timestamp := now }
            ((latest :: rest).dropLast)
          have hb3 : ∀ x ∈ List.orderedInsert idLe
              { id := (latest.id + (U64LIM - 1)) % U64LIM, owner := owner, value := value, average := 0, timestamp := now }
              ((latest :: rest).dropLast), x.value ≤ val_max := by
            intro x hx
            rcases List.mem_cons.1 (hperm.mem_iff.1 hx) with h | h
            · rw [h]
              exact hv
            · exact hvb x ((List.dropLast_sublist _).subset h)
          refine ⟨?_, ⟨x0, hx0, hx0id⟩, ?_, ?_⟩
          · rw [List.length_map, List.orderedInsert_length, List.length_dropLast, hlen]
            decide
          · intro x hx hxid
            obtain ⟨y, hy, hfy⟩ := List.mem_map.1 hx
            by_cases hyid : y.id = (latest.id + (U64LIM - 1)) % U64LIM
            · rw [if_pos hyid] at hfy
              subst hfy
              rw [map_value_map_avg]
              exact code_avg_eq_trimmed _ hb3
            · rw [if_neg hyid] at hfy
              subst hfy
              exact absurd hxid hyid
          · intro x hxd
            have hxw3 : x ∈ List.orderedInsert idLe
                { id := (latest.id + (U64LIM - 1)) % U64LIM, owner := owner, value := value, average := 0, timestamp := now }
                ((latest :: rest).dropLast) :=
              hperm.mem_iff.2 (List.mem_cons_of_mem _ hxd)
            have hxid : x.id ≠ (latest.id + (U64LIM - 1)) % U64LIM := by
              intro hcontra
              have hmm := List.mem_map_of_mem eosusd.id hxd
              rw [hcontra] at hmm
              exact hnotmem hmm
            exact List.mem_map.2 ⟨x, hxw3, if_neg hxid⟩
    · rename_i hcond
      exfalso
      have h21 : (latest :: rest).length = datapoints_count := hlen
      rw [List.length_cons] at h21
      rw [List.length_cons] at hcond
      rw [h21] at hcond
      exact hcond (by decide)

/-- Claim C1 witness at a concrete input: the window `c1window` accepting
value 121. -/
theorem c1_trimmed_average_witness :
    c1window2.length = datapoints_count ∧
    (∃ x ∈ c1window2, x.id = newKeyOf c1window) ∧
    (∀ x ∈ c1window2, x.id = newKeyOf c1window → x.average = trimmedAvg7to15 (c1window2.map eosusd.value)) ∧
    (∀ x ∈ c1window.dropLast, x ∈ c1window2) :=
  c1_trimmed_average 2 121 777 c1window c1window2 (by decide) (by decide) (by decide) (by decide)

/-- Well-formedness of a window: the rows are strictly ascending in id, as
the primary index of the multi_index table guarantees. -/
def WF (w : List eosusd) : Prop := List.Pairwise (fun a b => a.id < b.id) w

/-- A well-formed window is sorted for the primary-key order. -/
lemma WF_sorted (w : List eosusd) (h : WF w) : List.Sorted idLe w :=
  h.imp (fun hab => Nat.le_of_lt hab)

/-- A well-formed window has pairwise distinct ids. -/
lemma WF_nodup_ids (w : List eosusd) (h : WF w) : (w.map eosusd.id).Nodup :=
  (List.pairwise_map).2 (h.imp fun hab => Nat.ne_of_lt hab)

/-- Sorted plus distinct ids gives well-formedness back. -/
lemma WF_of_sorted_nodup (w : List eosusd) (hs : List.Sorted idLe w)
    (hn : (w.map eosusd.id).Nodup) : WF w := by
  have h2 := (List.pairwise_map).1 hn
  exact (hs.and h2).imp (fun hab => Nat.lt_of_le_of_ne hab.1 hab.2)

/-- A successful emplace preserves well-formedness: the row goes to its
ordered position and its key was checked fresh. -/
lemma WF_emplace (x : eosusd) (w w2 : List eosusd)
    (h : emplaceById x w = some w2) (hwf : WF w) : WF w2 := by
  unfold emplaceById at h
  split at h
  · exact absurd h (by simp)
  · rename_i hnm
    injection h with h
    subst h
    apply WF_of_sorted_nodup
    · exact List.Sorted.orderedInsert x w (WF_sorted w hwf)
    · have hperm : ((List.orderedInsert idLe x w).map eosusd.id).Perm (x.id :: w.map eosusd.id) :=
        (List.perm_orderedInsert idLe x w).map eosusd.id
      rw [hperm.nodup_iff]
      exact List.nodup_cons.2 ⟨hnm, WF_nodup_ids w hwf⟩

/-- The modify step leaves the window's id list unchanged. -/
lemma map_id_map_avg (pk a : Nat) (w : List eosusd) :
    (w.map (fun s => if s.id = pk then { s with average := a } else s)).map eosusd.id =
      w.map eosusd.id := by
  rw [List.map_map]
  apply List.map_congr_left
  intro s _
  exact map_avg_id pk a s

/-- One accepted submission preserves well-formedness of the window. -/
lemma update_WF (o v t : Nat) (w w2 : List eosusd)
    (h : update_eosusd_oracle o v t w = some w2) (hwf : WF w) : WF w2 := by
  cases w with
  | nil => exact WF_emplace _ [] w2 h List.Pairwise.nil
  | cons latest rest =>
    unfold update_eosusd_oracle at h
    dsimp only at h
    split at h
    · split at h
      · exact absurd h (by simp)
      · rename_i w3 hemp
        injection h with h
        subst h
        have hwf3 : WF w3 :=
          WF_emplace _ _ w3 hemp (List.Pairwise.sublist (List.dropLast_sublist _) hwf)
        unfold WF
        rw [List.pairwise_map]
        refine hwf3.imp ?_
        intro a b hab
        rw [map_avg_id, map_avg_id]
        exact hab
    · exact WF_emplace _ _ w2 h hwf

/-- One accepted submission keeps the window at no more than
`datapoints_count` rows. -/
lemma update_length_le (o v t : Nat) (w w2 : List eosusd)
    (h : update_eosusd_oracle o v t w = some w2) (hle : w.length ≤ datapoints_count) :
    w2.length ≤ datapoints_count := by
  cases w with
  | nil =>
    simp only [update_eosusd_oracle, emplaceById, List.map_nil, List.not_mem_nil, if_false] at h
    injection h with h
    subst h
    rw [List.orderedInsert_length]
    decide
  | cons latest rest =>
    unfold update_eosusd_oracle at h
    dsimp only at h
    split at h
    · split at h
      · exact absurd h (by simp)
      · rename_i w3 hemp
        injection h with h
        subst h
        unfold emplaceById at hemp
        split at hemp
        · exact absurd hemp (by simp)
        · injection hemp with hemp
          subst hemp
          rw [List.length_map, List.orderedInsert_length, List.length_dropLast]
          simp only [List.length_cons] at hle ⊢
          omega
    · rename_i hcond
      unfold emplaceById at h
      split at h
      · exact absurd h (by simp)
      · injection h with h
        subst h
        rw [List.orderedInsert_length]
        simp only [List.length_cons, gt_iff_lt, not_lt] at hcond ⊢
        omega

/-- Along any fully accepted run, the window size bound is preserved. -/
lemma runWindow_le (subs : List (Nat × Nat × Nat)) : ∀ w0 w, runWindow subs w0 = some w →
    w0.length ≤ datapoints_count → w.length ≤ datapoints_count := by
  induction subs with
  | nil =>
    intro w0 w h h0
    injection h with h
    subst h
    exact h0
  | cons s rest ih =>
    intro w0 w h h0
    obtain ⟨o, v, t⟩ := s
    unfold runWindow at h
    split at h
    · exact absurd h (by simp)
    · rename_i w1 hstep
      exact ih w1 w h (update_length_le o v t w0 w1 hstep h0)

/-- Along any fully accepted run, well-formedness is preserved. -/
lemma runWindow_WF (subs : List (Nat × Nat × Nat)) : ∀ w0 w, runWindow subs w0 = some w →
    WF w0 → WF w := by
  induction subs with
  | nil =>
    intro w0 w h h0
    injection h with h
    subst h
    exact h0
  | cons s rest ih =>
    intro w0 w h h0
    obtain ⟨o, v, t⟩ := s
    unfold runWindow at h
    split at h
    · exact absurd h (by simp)
    · rename_i w1 hstep
      exact ih w1 w h (update_WF o v t w0 w1 hstep h0)

/-- Claim C2: starting from an empty window, any sequence of accepted
submissions keeps the window at no more than 21 rows; and once it holds
exactly 21, every further accepted submission keeps the size at 21 and
replaces exactly the row whose id is the largest (the oldest): the new
window's ids are the freshly assigned key together with all old ids except
that maximum. -/
theorem c2_window_bound (subs : List (Nat × Nat × Nat)) (w : List eosusd)
    (hrun : runWindow subs [] = some w) :
    w.length ≤ datapoints_count ∧
    (∀ o v t w2, w.length = datapoints_count → update_eosusd_oracle o v t w = some w2 →
      w2.length = datapoints_count ∧
      ∃ m, m ∈ w.map eosusd.id ∧ (∀ i ∈ w.map eosusd.id, i ≤ m) ∧
        (∀ i, i ∈ w2.map eosusd.id ↔ (i = newKeyOf w ∨ (i ∈ w.map eosusd.id ∧ i ≠ m)))) := by
  have hwf := runWindow_WF subs [] w hrun List.Pairwise.nil
  refine ⟨runWindow_le subs [] w hrun (by decide), ?_⟩
  intro o v t w2 hfull hupd
  cases w with
  | nil => exact absurd hfull (by decide)
  | cons latest rest =>
    unfold update_eosusd_oracle at hupd
    dsimp only at hupd
    split at hupd
    · split at hupd
      · exact absurd hupd (by simp)
      · rename_i w3 hemp
        injection hupd with hupd
        subst hupd
        unfold emplaceById at hemp
        split at hemp
        · exact absurd hemp (by simp)
        · rename_i hnotmem
          injection hemp with hemp
          subst hemp
          have hne : (latest :: rest) ≠ [] := by simp
          have hdec := List.dropLast_append_getLast hne
          have hlast_mem : (latest :: rest).getLast hne ∈ latest :: rest := List.getLast_mem hne
          have hbelow : ∀ a ∈ (latest :: rest).dropLast, a.id < ((latest :: rest).getLast hne).id := by
            intro a ha
            have hwf2 : List.Pairwise (fun a b : eosusd => a.id < b.id)
                ((latest :: rest).dropLast ++ [(latest :: rest).getLast hne]) := by
              rw [hdec]
              exact hwf
            have h3 := (List.pairwise_append.1 hwf2).2.2
            exact h3 a ha _ (by simp)
          have hperm := List.perm_orderedInsert idLe
            { id := (latest.id + (U64LIM - 1)) % U64LIM, owner := o, value := v, average := 0, timestamp := t }
            ((latest :: rest).dropLast)
          have hidperm : ((List.orderedInsert idLe
              { id := (latest.id + (U64LIM - 1)) % U64LIM, owner := o, value := v, average := 0, timestamp := t }
              ((latest :: rest).dropLast)).map eosusd.id).Perm
              ((latest.id + (U64LIM - 1)) % U64LIM :: ((latest :: rest).dropLast).map eosusd.id) :=
            hperm.map eosusd.id
          refine ⟨?_, ((latest :: rest).getLast hne).id, List.mem_map_of_mem _ hlast_mem, ?_, ?_⟩
          · rw [List.length_map, List.orderedInsert_length, List.length_dropLast, hfull]
            decide
          · intro i hi
            obtain ⟨a, ha, hai⟩ := List.mem_map.1 hi
            subst hai
            have : a ∈ (latest :: rest).dropLast ++ [(latest :: rest).getLast hne] := by
              rw [hdec]
              exact ha
            rcases List.mem_append.1 this with h | h
            · exact Nat.le_of_lt (hbelow a h)
            · rw [List.mem_singleton.1 h]
          · intro i
            rw [map_id_map_avg, hidperm.mem_iff]
            show i ∈ _ :: _ ↔ _
            rw [List.mem_cons]
            constructor
            · rintro (h | h)
              · exact Or.inl h
              · refine Or.inr ⟨?_, ?_⟩
                · exact (List.map_subset eosusd.id (List.dropLast_sublist _).subset) h
                · obtain ⟨a, ha, hai⟩ := List.mem_map.1 h
                  subst hai
                  exact Nat.ne_of_lt (hbelow a ha)
            · rintro (h | ⟨h, hm⟩)
              · exact Or.inl h
              · right
                obtain ⟨a, ha, hai⟩ := List.mem_map.1 h
                subst hai
                have : a ∈ (latest :: rest).dropLast ++ [(latest :: rest).getLast hne] := by
                  rw [hdec]
                  exact ha
                rcases List.mem_append.1 this with h2 | h2
                · exact List.mem_map_of_mem _ h2
                · rw [List.mem_singleton.1 h2] at hm
                  exact absurd rfl hm
    · rename_i hcond
      exfalso
      rw [List.length_cons] at hcond hfull
      rw [hfull] at hcond
      exact hcond (by decide)

/-- Claim C2 witness at a concrete one-step run. -/
theorem c2_window_bound_witness :
    ([({ id := SEQ_MAX, owner := 1, value := 100, average := 100, timestamp := 0 } : eosusd)]).length ≤ datapoints_count ∧
    (∀ o v t w2,
      ([({ id := SEQ_MAX, owner := 1, value := 100, average := 100, timestamp := 0 } : eosusd)]).length = datapoints_count →
      update_eosusd_oracle o v t [{ id := SEQ_MAX, owner := 1, value := 100, average := 100, timestamp := 0 }] = some w2 →
      w2.length = datapoints_count ∧
      ∃ m, m ∈ ([({ id := SEQ_MAX, owner := 1, value := 100, average := 100, timestamp := 0 } : eosusd)]).map eosusd.id ∧
        (∀ i ∈ ([({ id := SEQ_MAX, owner := 1, value := 100, average := 100, timestamp := 0 } : eosusd)]).map eosusd.id, i ≤ m) ∧
        (∀ i, i ∈ w2.map eosusd.id ↔
          (i = newKeyOf [{ id := SEQ_MAX, owner := 1, value := 100, average := 100, timestamp := 0 }] ∨
           (i ∈ ([({ id := SEQ_MAX, owner := 1, value := 100, average := 100, timestamp := 0 } : eosusd)]).map eosusd.id ∧ i ≠ m)))) :=
  c2_window_bound [(1, 100, 0)] [{ id := SEQ_MAX, owner := 1, value := 100, average := 100, timestamp := 0 }] (by decide)

/-- A mapped cons cell whose head has the right id and whose tail ids are
all bounded below witnesses the head-and-lower-bound shape, as long as the
map function preserves ids. -/
lemma inv2_of_cons (f : eosusd → eosusd) (hf : ∀ s, (f s).id = s.id) (x : eosusd)
    (l : List eosusd) (B : Nat) (hx : x.id = B) (hl : ∀ y ∈ l, B ≤ y.id) :
    ∃ l2 r2, (x :: l).map f = l2 :: r2 ∧ l2.id = B ∧ ∀ z ∈ (x :: l).map f, B ≤ z.id := by
  refine ⟨f x, l.map f, rfl, ?_, ?_⟩
  · rw [hf, hx]
  · intro z hz
    obtain ⟨y, hy, hyz⟩ := List.mem_map.1 hz
    subst hyz
    rw [hf]
    rcases List.mem_cons.1 hy with h | h
    · rw [h, hx]
    · exact hl y h

/-- The unmapped variant of the previous lemma. -/
lemma inv2_of_cons_plain (x : eosusd) (l : List eosusd) (B : Nat)
    (hx : x.id = B) (hl : ∀ y ∈ l, B ≤ y.id) :
    ∃ l2 r2, x :: l = l2 :: r2 ∧ l2.id = B ∧ ∀ z ∈ x :: l, B ≤ z.id := by
  refine ⟨x, l, rfl, hx, ?_⟩
  intro z hz
  rcases List.mem_cons.1 hz with h | h
  · rw [h, hx]
  · exact hl z h

/-- One accepted submission on a non-empty window whose newest (smallest)
id is `U64LIM - k` produces a window headed by a row with id
`U64LIM - (k+1)`, all ids staying at least that large — provided no
wraparound occurs (`k + 1 ≤ U64LIM`). -/
lemma update_inv2 (o v t k : Nat) (latest : eosusd) (rest : List eosusd) (w2 : List eosusd)
    (hupd : update_eosusd_oracle o v t (latest :: rest) = some w2)
    (hid : latest.id = U64LIM - k)
    (hlb : ∀ x ∈ latest :: rest, U64LIM - k ≤ x.id)
    (hk1 : 1 ≤ k) (hk : k + 1 ≤ U64LIM) :
    ∃ l2 r2, w2 = l2 :: r2 ∧ l2.id = U64LIM - (k + 1) ∧
      ∀ x ∈ w2, U64LIM - (k + 1) ≤ x.id := by
  have hpk : (latest.id + (U64LIM - 1)) % U64LIM = U64LIM - (k + 1) := by
    rw [hid]
    unfold U64LIM at hk ⊢
    omega
  have hmono : U64LIM - (k + 1) ≤ U64LIM - k := Nat.sub_le_sub_left (Nat.le_succ k) U64LIM
  unfold update_eosusd_oracle at hupd
  dsimp only at hupd
  split at hupd
  · rename_i hcond
    have hrest : rest ≠ [] := by
      intro hr
      subst hr
      simp [datapoints_count] at hcond
    split at hupd
    · exact absurd hupd (by simp)
    · rename_i w3 hemp
      injection hupd with hupd
      subst hupd
      unfold emplaceById at hemp
      split at hemp
      · exact absurd hemp (by simp)
      · rename_i hnm
        injection hemp with hemp
        subst hemp
        have hdl : (latest :: rest).dropLast = latest :: rest.dropLast := by
          cases rest with
          | nil => exact absurd rfl hrest
          | cons b l => rfl
        have hle2 : idLe { id := (latest.id + (U64LIM - 1)) % U64LIM, owner := o, value := v, average := 0, timestamp := t } latest := by
          show (latest.id + (U64LIM - 1)) % U64LIM ≤ latest.id
          rw [hpk, hid]
          exact hmono
        rw [hdl, List.orderedInsert_of_le idLe rest.dropLast hle2]
        refine inv2_of_cons _ (map_avg_id _ _) _ _ _ hpk ?_
        intro y hy
        have hym : y ∈ latest :: rest := by
          rcases List.mem_cons.1 hy with h2 | h2
          · rw [h2]
            exact List.mem_cons_self _ _
          · exact List.mem_cons_of_mem _ ((List.dropLast_sublist _).subset h2)
        exact hmono.trans (hlb y hym)
  · unfold emplaceById at hupd
    split at hupd
    · exact absurd hupd (by simp)
    · rename_i hnm
      injection hupd with hupd
      subst hupd
      have hle2 : idLe { id := (latest.id + (U64LIM - 1)) % U64LIM, owner := o, value := v, average := v, timestamp := t } latest := by
        show (latest.id + (U64LIM - 1)) % U64LIM ≤ latest.id
        rw [hpk, hid]
        exact hmono
      rw [List.orderedInsert_of_le idLe rest hle2]
      refine inv2_of_cons_plain _ _ _ hpk ?_
      intro y hy
      exact hmono.trans (hlb y hy)

/-- The head-id invariant carried along an accepted run: after `n` more
accepted submissions on a window headed by id `U64LIM - k`, the head id is
`U64LIM - (k + n)` (no wraparound within the run). -/
lemma runWindow_inv2 (subs : List (Nat × Nat × Nat)) : ∀ k latest rest w,
    runWindow subs (latest :: rest) = some w →
    latest.id = U64LIM - k → (∀ x ∈ latest :: rest, U64LIM - k ≤ x.id) →
    1 ≤ k → k + subs.length ≤ U64LIM →
    ∃ l2 r2, w = l2 :: r2 ∧ l2.id = U64LIM - (k + subs.length) ∧
      ∀ x ∈ w, U64LIM - (k + subs.length) ≤ x.id := by
  induction subs with
  | nil =>
    intro k latest rest w h hid hlb hk1 hk
    injection h with h
    subst h
    exact ⟨latest, rest, rfl, by simpa using hid, by simpa using hlb⟩
  | cons s rest0 ih =>
    intro k latest rest w h hid hlb hk1 hk
    obtain ⟨o, v, t⟩ := s
    unfold runWindow at h
    split at h
    · exact absurd h (by simp)
    · rename_i w1 hstep
      rw [List.length_cons] at hk
      obtain ⟨l2, r2, hw1, hid2, hlb2⟩ :=
        update_inv2 o v t k latest rest w1 hstep hid hlb hk1 (by omega)
      subst hw1
      have hfin := ih (k + 1) l2 r2 w h hid2 hlb2 (by omega) (by omega)
      obtain ⟨l3, r3, hw, hid3, hlb3⟩ := hfin
      refine ⟨l3, r3, hw, ?_, ?_⟩
      · rw [hid3, List.length_cons]
        have harg : k + 1 + rest0.length = k + (rest0.length + 1) := by omega
        rw [harg]
      · intro x hx
        have hxle := hlb3 x hx
        have harg : k + 1 + rest0.length = k + (rest0.length + 1) := by omega
        rw [harg] at hxle
        rw [List.length_cons]
        exact hxle

/-- The first accepted submission on the empty window creates the single
row with id `SEQ_MAX`. -/
lemma update_first (o v t : Nat) (w2 : List eosusd)
    (h : update_eosusd_oracle o v t [] = some w2) :
    w2 = [{ id := SEQ_MAX, owner := o, value := v, average := v, timestamp := t }] := by
  simp only [update_eosusd_oracle, emplaceById, List.map_nil, List.not_mem_nil, if_false] at h
  injection h with h
  exact h.symm

/-- After `n ≥ 1` accepted submissions from the empty window (no
wraparound), the newest row — the head of the primary index — carries id
`U64LIM - n`, and every id in the window is at least that. -/
lemma runWindow_head (subs : List (Nat × Nat × Nat)) (w : List eosusd)
    (hrun : runWindow subs [] = some w) (hne : 1 ≤ subs.length) (hlen : subs.length ≤ U64LIM) :
    ∃ latest rest, w = latest :: rest ∧ latest.id = U64LIM - subs.length ∧
      ∀ x ∈ w, U64LIM - subs.length ≤ x.id := by
  cases subs with
  | nil => simp at hne
  | cons s rest0 =>
    obtain ⟨o, v, t⟩ := s
    unfold runWindow at hrun
    split at hrun
    · exact absurd hrun (by simp)
    · rename_i w1 hstep
      rw [update_first o v t w1 hstep] at hrun
      rw [List.length_cons] at hlen ⊢
      have hinv := runWindow_inv2 rest0 1
        { id := SEQ_MAX, owner := o, value := v, average := v, timestamp := t } [] w hrun
        (by rfl) (by intro x hx; rw [List.mem_singleton.1 hx]; exact Nat.le_refl _) (Nat.le_refl 1)
        (by omega)
      obtain ⟨l2, r2, hw, hid2, hlb2⟩ := hinv
      refine ⟨l2, r2, hw, ?_, ?_⟩
      · rw [hid2]
        congr 1
        omega
      · intro x hx
        have := hlb2 x hx
        have harg : 1 + rest0.length = rest0.length + 1 := by omega
        rw [harg] at this
        exact this

/-- Claim C4: along any fully accepted run from the empty window with no
uint64 wraparound (at most 2^64 submissions), the first-ever observation
receives sequence `SEQ_MAX`, the newest row after n submissions carries
sequence `2^64 - n`, and each further accepted submission receives exactly
the current newest sequence minus one — strictly smaller, so the assigned
keys strictly decrease in insertion order. -/
theorem c4_sequence_keys (subs : List (Nat × Nat × Nat)) (w : List eosusd)
    (hrun : runWindow subs [] = some w) (hne : 1 ≤ subs.length) (hlen : subs.length ≤ U64LIM) :
    ∃ latest rest, w = latest :: rest ∧
      latest.id = U64LIM - subs.length ∧
      (subs.length = 1 → latest.id = SEQ_MAX) ∧
      (∀ s w2, runWindow (subs ++ [s]) [] = some w2 → subs.length + 1 ≤ U64LIM →
        ∃ l2 r2, w2 = l2 :: r2 ∧ l2.id = latest.id - 1 ∧ l2.id < latest.id) := by
  obtain ⟨latest, rest, hw, hid, hlb⟩ := runWindow_head subs w hrun hne hlen
  refine ⟨latest, rest, hw, hid, ?_, ?_⟩
  · intro h1
    rw [hid, h1]
    rfl
  · intro s w2 hrun2 hk2
    have hlen2 : 1 ≤ (subs ++ [s]).length := by
      rw [List.length_append]
      omega
    have hlen3 : (subs ++ [s]).length ≤ U64LIM := by
      rw [List.length_append]
      simpa using hk2
    obtain ⟨l2, r2, hw2, hid2, hlb2⟩ := runWindow_head (subs ++ [s]) w2 hrun2 hlen2 hlen3
    refine ⟨l2, r2, hw2, ?_, ?_⟩
    · rw [hid2, hid, List.length_append]
      simp only [List.length_singleton]
      unfold U64LIM
      omega
    · rw [hid2, hid, List.length_append]
      simp only [List.length_singleton]
      have hne2 : 1 ≤ subs.length := hne
      unfold U64LIM at hk2 ⊢
      omega

/-- Claim C4 witness at a concrete one-step run. -/
theorem c4_sequence_keys_witness :
    ∃ latest rest,
      [({ id := SEQ_MAX, owner := 1, value := 100, average := 100, timestamp := 0 } : eosusd)] = latest :: rest ∧
      latest.id = U64LIM - 1 ∧
      ((1 : Nat) = 1 → latest.id = SEQ_MAX) ∧
      (∀ s w2, runWindow ([(1, 100, 0)] ++ [s]) [] = some w2 → 1 + 1 ≤ U64LIM →
        ∃ l2 r2, w2 = l2 :: r2 ∧ l2.id = latest.id - 1 ∧ l2.id < latest.id) :=
  c4_sequence_keys [(1, 100, 0)]
    [{ id := SEQ_MAX, owner := 1, value := 100, average := 100, timestamp := 0 }]
    (by decide) (by decide) (by decide)
